import Mathlib

set_option maxRecDepth 8000

/-!
Verification of the QueueGuard record store (package `numbergenerator`,
with the content-addressed `vmoformat` shard variant).

A file on disk is modelled as a `List Nat` of bytes (each byte < 256 for
well-formed files).  `os.File.Seek`/`Write` past the end of file extends the
file with zero padding, exactly as the OS does; `binary.Read` requires the
full byte count and reports `io.EOF` when zero bytes are available at the
position and `io.ErrUnexpectedEOF` on a partial read, mirroring
`io.ReadFull`.  All 64-bit counters are `Nat` reduced mod 2^64 where the Go
code performs `uint64` arithmetic.
-/

namespace QueueGuard

/-- Errors surfaced by the store, mirroring the Go error values:
`eof` / `unexpectedEof` from `binary.Read` (`io.ReadFull` semantics),
`enoent` from `os.OpenFile` when the key's directory does not exist,
`outOfRange` for the explicit `number > header.TotalRecords` check in
`GetFilename`, and `negOffset` for `file.Seek` to a negative position. -/
inductive Err where
  | eof
  | unexpectedEof
  | enoent
  | outOfRange
  | negOffset
deriving DecidableEq, Repr

/-- Byte `i` of a file (0 when reading conceptually past the end). -/
def byteAt : List Nat → Nat → Nat
  | [], _ => 0
  | b :: _, 0 => b
  | _ :: t, i + 1 => byteAt t i

/-- The result of `Seek(off)` + `Write(bs)` on a file: bytes `[off, off+|bs|)`
are replaced by `bs`, a seek past the end zero-pads the gap, and the file
grows exactly to `max length (off + |bs|)`. -/
def writeAt (f : List Nat) (off : Nat) (bs : List Nat) : List Nat :=
  (List.range (max f.length (off + bs.length))).map
    (fun i => if off ≤ i ∧ i < off + bs.length then byteAt bs (i - off) else byteAt f i)

/-- The `n` bytes of `f` starting at `off` (zero past the end). -/
def bytesAt (f : List Nat) (off n : Nat) : List Nat :=
  (List.range n).map (fun j => byteAt f (off + j))

/-- `binary.Read` of `n` bytes at position `off` (`io.ReadFull` semantics):
success only when all `n` bytes exist; `io.EOF` when no byte is available
at `off`; `io.ErrUnexpectedEOF` on a partial read. -/
def readFull (f : List Nat) (off n : Nat) : Except Err (List Nat) :=
  if off + n ≤ f.length then .ok (bytesAt f off n)
  else if f.length ≤ off then .error .eof
  else .error .unexpectedEof

/-- File position after a (possibly failed) read of `n` bytes at `off`. -/
def posAfterRead (len off n : Nat) : Nat :=
  min (off + n) (max off len)

/-- Little-endian byte string of `v` on `k` bytes (binary.LittleEndian). -/
def encLE : Nat → Nat → List Nat
  | 0, _ => []
  | k + 1, v => v % 256 :: encLE k (v / 256)

/-- Big-endian 8-byte encoding of a `uint64` (binary.BigEndian.PutUint64). -/
def be64 (v : Nat) : List Nat :=
  (encLE 8 v).reverse

/-- Big-endian decoding (binary.BigEndian.Uint64 on 8 bytes). -/
def decBE (l : List Nat) : Nat :=
  l.foldl (fun a b => a * 256 + b) 0

/-- Little-endian decoding (binary.LittleEndian on 4/8 bytes). -/
def decLE (l : List Nat) : Nat :=
  l.foldr (fun b a => a * 256 + b) 0

/-! ### The sequential variant (`numbergenerator.go`) — binary layout

`FileHeader` is 16 bytes: `TotalRecords` then `LastUpdated`, both big-endian
`uint64`.  `NumberStatusFilename` is 45 bytes: 8-byte big-endian `Number`,
1 status byte, 36 filename bytes (a UUID string copied into a zeroed
`[36]byte`). -/

/-- The 16 header bytes for given `TotalRecords` and `LastUpdated`. -/
def headerBytes (t u : Nat) : List Nat :=
  be64 t ++ be64 u

/-- `copy(filename[:], tok)`: the 36-byte filename field, zero padded. -/
def pad36 (tok : List Nat) : List Nat :=
  (List.range 36).map (fun i => byteAt tok i % 256)

/-- The 45 record bytes for a `NumberStatusFilename` value. -/
def recordBytes (num st : Nat) (tok : List Nat) : List Nat :=
  be64 num ++ [st % 256] ++ pad36 tok

/-- Header `TotalRecords` as stored on disk (bytes 0..7, big-endian). -/
def totalRecordsOf (f : List Nat) : Nat :=
  decBE (bytesAt f 0 8)

/-- Header `LastUpdated` as stored on disk (bytes 8..15, big-endian). -/
def lastUpdatedOf (f : List Nat) : Nat :=
  decBE (bytesAt f 8 8)

/-- A well-formed data file: genuine bytes, and the header's `TotalRecords`
matches the number of 45-byte record slots after the 16-byte header. -/
def wfFile (f : List Nat) : Prop :=
  (∀ b ∈ f, b < 256) ∧ f.length = 16 + 45 * totalRecordsOf f


/-! ### The sequential variant — operations

The per-key state visible to the operations is the on-disk file plus the
handle cache: `dir` (does `basePath/key/` exist), `file` (the bytes of
`data.bin`, `none` when the file does not exist) and `pos` (the read/write
position of the cached handle in `fileCache`, `none` when the key is not
cached).  `AppendRecord` opens its own handle each call (and closes it), so
only the other operations share the cached position. -/

structure KeyState where
  dir : Bool
  file : Option (List Nat)
  pos : Option Nat
deriving DecidableEq, Repr

/-- `ensureFileOpen`: reuse the cached handle, else `os.OpenFile` with
`O_RDWR|O_CREATE` — which opens an existing file at position 0, creates an
empty file when only the key's directory exists, and fails with `ENOENT`
when the directory itself is missing (it is created only by `AppendRecord`). -/
def ensureFileOpen (st : KeyState) : Except Err KeyState :=
  match st.pos with
  | some _ => .ok st
  | none =>
    match st.file with
    | some _ => .ok ⟨st.dir, st.file, some 0⟩
    | none => if st.dir then .ok ⟨true, some [], some 0⟩ else .error .enoent

/-- Core of `AppendRecord` after the header was obtained (`t`, `u`):
increment `TotalRecords` (uint64), reset `LastUpdated` to 0 for the first
record, write the header at offset 0, then append the 45 record bytes at
the end of file. -/
def appendCore (f : List Nat) (tok : List Nat) (st t u : Nat) : Nat × List Nat :=
  let t' := (t + 1) % 2 ^ 64
  let u' := if t' = 1 then 0 else u
  let f1 := writeAt f 0 (headerBytes t' u')
  (t', writeAt f1 f1.length (recordBytes t' st tok))

/-- `AppendRecord` on the file bytes: read the header from position 0 of a
fresh handle, tolerating exactly `io.EOF` (an empty file) as the zero
header — a partial header is an error; then `appendCore`.  `tok` is the
fresh UUID string (token generation is external randomness). -/
def AppendRecord (f : List Nat) (tok : List Nat) (st : Nat) :
    Except Err (Nat × List Nat) :=
  match readFull f 0 16 with
  | .ok hb => .ok (appendCore f tok st (decBE (hb.take 8)) (decBE (hb.drop 8)))
  | .error .eof => .ok (appendCore f tok st 0 0)
  | .error e => .error e

/-- `AppendRecord` at the state level: creates the key's directory and (via
`O_CREATE`) the file when missing; its private handle leaves the cached
position untouched. -/
def AppendRecordState (st : KeyState) (tok : List Nat) (s : Nat) :
    Except Err (Nat × KeyState) :=
  match AppendRecord (st.file.getD []) tok s with
  | .error e => .error e
  | .ok (n, f') => .ok (n, ⟨true, some f', st.pos⟩)

/-- `GetLastNumber` (the record count): seek 0, read the 16-byte header,
return `TotalRecords`.  Returns the value and the new handle position. -/
def GetLastNumber (f : List Nat) : Except Err Nat × Nat :=
  match readFull f 0 16 with
  | .error e => (.error e, posAfterRead f.length 0 16)
  | .ok hb => (.ok (decBE (hb.take 8)), 16)

/-- `GetLastUpdateNumber`: seek 0, read the header, return `LastUpdated`. -/
def GetLastUpdateNumber (f : List Nat) : Except Err Nat × Nat :=
  match readFull f 0 16 with
  | .error e => (.error e, posAfterRead f.length 0 16)
  | .ok hb => (.ok (decBE (hb.drop 8)), 16)

/-- The uint64 bit pattern of the wrapping `int64` offset expression
`base + (int64(number)-1)*recordSize + extra` (`recordSize = 45`): Go
reinterprets the `uint64` number as `int64` and multiplies/adds with
two's-complement wrap-around, which on bit patterns is arithmetic mod 2^64.
`file.Seek` treats the result as negative (and fails) iff bit 63 is set,
i.e. iff the pattern is ≥ 2^63. -/
def seekOffset (base extra n : Nat) : Nat :=
  (base + 45 * ((n % 2 ^ 64 + 2 ^ 64 - 1) % 2 ^ 64) + extra) % 2 ^ 64

/-- `headerSize + (int64(number)-1)*recordSize` of the lookups (record
start), as a wrapping int64 bit pattern. -/
def recordOffset (n : Nat) : Nat :=
  seekOffset 16 0 n

/-- `headerSize + (int64(number)-1)*recordSize + 8` of the batch update
(the status byte), as a wrapping int64 bit pattern. -/
def statusOffset (n : Nat) : Nat :=
  seekOffset 16 8 n

/-- `GetStatus`: read the header from the *current* handle position (the Go
code does not seek first; the value is unused), then seek to
`headerSize + (number-1)*recordSize` (wrapping int64 — see `seekOffset`)
and read one 45-byte record; its status byte is returned.  A negative
wrapped offset fails the seek; a huge `number` can alias to a small
in-bounds offset (the wrap), making the read succeed on whatever bytes sit
there. -/
def GetStatus (f : List Nat) (p n : Nat) : Except Err Nat × Nat :=
  match readFull f p 16 with
  | .error e => (.error e, posAfterRead f.length p 16)
  | .ok _ =>
    let off := recordOffset n
    if 2 ^ 63 ≤ off then (.error .negOffset, p + 16)
    else
      match readFull f off 45 with
      | .error e => (.error e, posAfterRead f.length off 45)
      | .ok rb => (.ok (byteAt rb 8), off + 45)

/-- `GetFilename` (the token lookup): read the header from the current
handle position, reject `number > TotalRecords`, then seek to the record's
wrapping-int64 offset and read its 36 filename bytes. -/
def GetFilename (f : List Nat) (p n : Nat) : Except Err (List Nat) × Nat :=
  match readFull f p 16 with
  | .error e => (.error e, posAfterRead f.length p 16)
  | .ok hb =>
    if decBE (hb.take 8) < n then (.error .outOfRange, p + 16)
    else
      let off := recordOffset n
      if 2 ^ 63 ≤ off then (.error .negOffset, p + 16)
      else
        match readFull f off 45 with
        | .error e => (.error e, posAfterRead f.length off 45)
        | .ok rb => (.ok (rb.drop 9), off + 45)

/-- The write loop of `UpdateStatuses`: for each listed number seek to
`headerSize + (number-1)*recordSize + 8` — computed in wrapping int64
(`statusOffset`) — and write one `1` byte.  A number whose wrapped offset
is negative (0, or values near and above 2^63) fails the seek and aborts
the loop with the earlier writes kept. -/
def updLoop : List Nat → Nat → List Nat → Option Err × List Nat × Nat
  | f, p, [] => (none, f, p)
  | f, p, n :: rest =>
    let off := statusOffset n
    if 2 ^ 63 ≤ off then (some .negOffset, f, p)
    else updLoop (writeAt f off [1]) (off + 1) rest

/-- Result of `UpdateStatuses` on the file bytes: error (if any), resulting
file, resulting handle position. -/
structure UpdResult where
  err : Option Err
  file : List Nat
  pos : Nat
deriving DecidableEq, Repr

/-- `UpdateStatuses` on the file bytes, given the cached handle position
`p`: read the header from `p` (no seek — the Go code reads wherever the
cached handle is), run the write loop, then rewrite the header at offset 0
with `LastUpdated := numbers[len-1]` and the `TotalRecords` value that was
just read. -/
def UpdateStatuses (f : List Nat) (p : Nat) (ns : List Nat) : UpdResult :=
  if ns = [] then ⟨none, f, p⟩
  else
    match readFull f p 16 with
    | .error e => ⟨some e, f, posAfterRead f.length p 16⟩
    | .ok hb =>
      match updLoop f (p + 16) ns with
      | (some e, f1, p1) => ⟨some e, f1, p1⟩
      | (none, f1, _) =>
        ⟨none, writeAt f1 0 (headerBytes (decBE (hb.take 8)) (ns.getLastD 0)), 16⟩

/-- `UpdateStatuses` at the state level: the empty-list check happens before
`ensureFileOpen`, so an empty batch touches nothing at all. -/
def UpdateStatusesState (st : KeyState) (ns : List Nat) : Option Err × KeyState :=
  if ns = [] then (none, st)
  else
    match ensureFileOpen st with
    | .error e => (some e, st)
    | .ok st1 =>
      let r := UpdateStatuses (st1.file.getD []) (st1.pos.getD 0) ns
      (r.err, ⟨st1.dir, some r.file, some r.pos⟩)

/-- State-level `GetStatus` (via `ensureFileOpen`). -/
def GetStatusState (st : KeyState) (n : Nat) : Except Err Nat × KeyState :=
  match ensureFileOpen st with
  | .error e => (.error e, st)
  | .ok st1 =>
    let r := GetStatus (st1.file.getD []) (st1.pos.getD 0) n
    (r.1, ⟨st1.dir, st1.file, some r.2⟩)

/-- State-level `GetFilename` (via `ensureFileOpen`). -/
def GetFilenameState (st : KeyState) (n : Nat) : Except Err (List Nat) × KeyState :=
  match ensureFileOpen st with
  | .error e => (.error e, st)
  | .ok st1 =>
    let r := GetFilename (st1.file.getD []) (st1.pos.getD 0) n
    (r.1, ⟨st1.dir, st1.file, some r.2⟩)

/-- State-level `GetLastNumber` (via `ensureFileOpen`). -/
def GetLastNumberState (st : KeyState) : Except Err Nat × KeyState :=
  match ensureFileOpen st with
  | .error e => (.error e, st)
  | .ok st1 =>
    let r := GetLastNumber (st1.file.getD [])
    (r.1, ⟨st1.dir, st1.file, some r.2⟩)

/-- State-level `GetLastUpdateNumber` (via `ensureFileOpen`). -/
def GetLastUpdateNumberState (st : KeyState) : Except Err Nat × KeyState :=
  match ensureFileOpen st with
  | .error e => (.error e, st)
  | .ok st1 =>
    let r := GetLastUpdateNumber (st1.file.getD [])
    (r.1, ⟨st1.dir, st1.file, some r.2⟩)

/-- Iterated `AppendRecord` on the file bytes, one token per append; stops
at the first error, otherwise returns the final file and the list of
returned sequence numbers. -/
def appendIter (f : List Nat) (toks : List (List Nat)) (s : Nat) :
    Except Err (List Nat × List Nat) :=
  match toks with
  | [] => .ok (f, [])
  | tok :: rest =>
    match AppendRecord f tok s with
    | .error e => .error e
    | .ok (n, f') =>
      match appendIter f' rest s with
      | .error e => .error e
      | .ok (ff, ns) => .ok (ff, n :: ns)

/-! ### The earlier iteration in `part_004`

Its header is just the 8-byte `lastNumber` (`headerSize = 8`,
`recordSize = 45`).  Only its single-record `UpdateStatus` is needed by the
claims: seek to `headerSize + (number-1)*recordSize + 8` — computed in
`uint64` and reinterpreted as `int64` by the seek, so it wraps exactly like
`seekOffset` — and overwrite one status byte; the header is never touched.
A wrapped-negative offset (e.g. `number = 0`) fails the seek. -/

def UpdateStatus (f : List Nat) (n newStatus : Nat) : Except Err (List Nat) :=
  let off := seekOffset 8 8 n
  if 2 ^ 63 ≤ off then .error .negOffset
  else .ok (writeAt f off [newStatus % 256])

/-- `part_004` header field: the file's `lastNumber` (bytes 0..7). -/
def lastNumberOf004 (f : List Nat) : Nat :=
  decBE (bytesAt f 0 8)

/-- A well-formed `part_004` data file: 8-byte header then 45-byte records. -/
def wfFile004 (f : List Nat) : Prop :=
  (∀ b ∈ f, b < 256) ∧ f.length = 8 + 45 * lastNumberOf004 f

/-! Concrete files used to evaluate the operations at specific inputs. -/

/-- A data file with exactly one record: `TotalRecords = 1`,
`LastUpdated = 0`, record 1 pending with an all-zero token (61 bytes). -/
def fileOne : List Nat :=
  headerBytes 1 0 ++ recordBytes 1 0 []

/-- A data file with exactly two records: `TotalRecords = 2` (106 bytes). -/
def fileTwo : List Nat :=
  headerBytes 2 0 ++ recordBytes 1 0 [] ++ recordBytes 2 0 []

/-- A `part_004` data file with one record: 8-byte header `lastNumber = 1`
followed by one 45-byte record (53 bytes). -/
def fileOne004 : List Nat :=
  be64 1 ++ recordBytes 1 0 []

end QueueGuard

namespace VMO

open QueueGuard

/-! ### The content-addressed shard variant (`vmoformat`, `part_000`)

`Header` is 11 bytes on disk (little-endian): 3-byte `FormatSign "VMO"`,
`uint32 Version`, `uint32 RecordsCount`.  `Record` is 32 bytes: 16-byte
MD5, `uint32 TotalCount`, `uint32 LastNumber`, `uint64 LastUpdated`.  A
`VMOFile` keeps its header (and a body index, irrelevant to the claims)
in memory next to the file; appends write only the record bytes, never the
header (`updateHeader` exists in the source but is never called). -/

/-- The 11 on-disk header bytes for a given `RecordsCount` (Version 1). -/
def vmoHeaderBytes (count : Nat) : List Nat :=
  [86, 77, 79] ++ QueueGuard.encLE 4 1 ++ QueueGuard.encLE 4 count

/-- The 32 on-disk record bytes: fresh record with `TotalCount = 1`,
`LastNumber = 0`, `LastUpdated = now`. -/
def vmoRecordBytes (md5 : List Nat) (now : Nat) : List Nat :=
  (List.range 16).map (fun i => QueueGuard.byteAt md5 i % 256)
    ++ QueueGuard.encLE 4 1 ++ QueueGuard.encLE 4 0 ++ QueueGuard.encLE 8 now

/-- One shard: the in-memory `Header.RecordsCount` and the file bytes. -/
structure VMOFile where
  headerCount : Nat
  disk : List Nat
deriving DecidableEq, Repr

/-- `createNewVMOFile`: fresh shard whose header (count 0) is written to
disk immediately. -/
def createNewVMOFile : VMOFile :=
  ⟨0, vmoHeaderBytes 0⟩

/-- `VMOFile.AddRecord`: increment the in-memory `RecordsCount` (uint32)
and append the record bytes at end of file.  The on-disk header is *not*
rewritten. -/
def VMOFileAddRecord (f : VMOFile) (md5 : List Nat) (now : Nat) : VMOFile :=
  ⟨(f.headerCount + 1) % 2 ^ 32,
    QueueGuard.writeAt f.disk f.disk.length (vmoRecordBytes md5 now)⟩

/-- `VMOFiles.AddRecord`: append to the newest shard, first opening a fresh
shard (per-shard ceiling 1,000,000) when the newest one is full.  The
empty-files case cannot arise (`NewVMOFiles` always leaves one shard). -/
def VMOFilesAddRecord (files : List VMOFile) (md5 : List Nat) (now : Nat) :
    List VMOFile :=
  match files.getLast? with
  | none => files
  | some cur =>
    if 1000000 ≤ cur.headerCount then
      files ++ [VMOFileAddRecord createNewVMOFile md5 now]
    else
      files.dropLast ++ [VMOFileAddRecord cur md5 now]

/-- `NewVMOFiles`: load the existing shards in suffix order; when none
exist, immediately create shard 0 (writing its header to disk). -/
def NewVMOFiles (loaded : List VMOFile) : List VMOFile :=
  if loaded.isEmpty then [createNewVMOFile] else loaded

/-- `RecordsCount` as persisted on disk: little-endian `uint32` at bytes
7..10 of the shard file. -/
def diskRecordsCount (f : VMOFile) : Nat :=
  QueueGuard.decLE (QueueGuard.bytesAt f.disk 7 4)

end VMO


namespace QueueGuard

/-! ### Basic lemmas about the byte primitives -/

theorem byteAt_nil (i : Nat) : byteAt [] i = 0 := by
  cases i <;> rfl

theorem byteAt_cons_succ (b : Nat) (t : List Nat) (i : Nat) :
    byteAt (b :: t) (i + 1) = byteAt t i := rfl

theorem byteAt_of_length_le (f : List Nat) (i : Nat) (h : f.length ≤ i) :
    byteAt f i = 0 := by
  induction f generalizing i with
  | nil => exact byteAt_nil i
  | cons b t ih =>
    cases i with
    | zero => simp at h
    | succ j =>
      rw [byteAt_cons_succ]
      exact ih j (by simpa using h)

theorem byteAt_append_left (x y : List Nat) (i : Nat) (h : i < x.length) :
    byteAt (x ++ y) i = byteAt x i := by
  induction x generalizing i with
  | nil => simp at h
  | cons b t ih =>
    cases i with
    | zero => rfl
    | succ j =>
      simp only [List.cons_append, byteAt_cons_succ]
      exact ih j (by simpa using h)

theorem byteAt_append_right (x y : List Nat) (i : Nat) (h : x.length ≤ i) :
    byteAt (x ++ y) i = byteAt y (i - x.length) := by
  induction x generalizing i with
  | nil => simp
  | cons b t ih =>
    cases i with
    | zero => simp at h
    | succ j =>
      simp only [List.cons_append, byteAt_cons_succ]
      have := ih j (by simpa using h)
      simpa [Nat.succ_sub_succ] using this

theorem byteAt_map_range' (g : Nat → Nat) :
    ∀ (n a i : Nat), byteAt ((List.range' a n).map g) i = if i < n then g (a + i) else 0 := by
  intro n
  induction n with
  | zero => intro a i; simp [byteAt_nil]
  | succ m ih =>
    intro a i
    rw [List.range'_succ, List.map_cons]
    cases i with
    | zero => simp [byteAt]
    | succ j =>
      rw [byteAt_cons_succ, ih (a + 1) j]
      by_cases h : j < m
      · simp [h, Nat.lt_succ_of_lt, Nat.succ_lt_succ h]
        ring_nf
      · have : ¬ (j + 1 < m + 1) := by omega
        simp [h, this]

theorem byteAt_map_range (g : Nat → Nat) (n i : Nat) :
    byteAt ((List.range n).map g) i = if i < n then g i else 0 := by
  rw [List.range_eq_range', byteAt_map_range' g n 0 i]
  simp

theorem length_writeAt (f : List Nat) (off : Nat) (bs : List Nat) :
    (writeAt f off bs).length = max f.length (off + bs.length) := by
  simp [writeAt]

theorem byteAt_writeAt (f : List Nat) (off : Nat) (bs : List Nat) (i : Nat) :
    byteAt (writeAt f off bs) i =
      if off ≤ i ∧ i < off + bs.length then byteAt bs (i - off) else byteAt f i := by
  rw [writeAt, byteAt_map_range]
  by_cases h : i < max f.length (off + bs.length)
  · simp [h]
  · have h1 : ¬ (off ≤ i ∧ i < off + bs.length) := by omega
    have h2 : f.length ≤ i := by omega
    simp [h, h1, byteAt_of_length_le f i h2]

theorem length_bytesAt (f : List Nat) (off n : Nat) :
    (bytesAt f off n).length = n := by
  simp [bytesAt]

theorem byteAt_bytesAt (f : List Nat) (off n j : Nat) (h : j < n) :
    byteAt (bytesAt f off n) j = byteAt f (off + j) := by
  rw [bytesAt, byteAt_map_range]
  simp [h]

/-- Reading back a whole list byte by byte reproduces the list. -/
theorem bytesAt_self (l : List Nat) (n : Nat) (h : l.length = n) :
    bytesAt l 0 n = l := by
  subst h
  induction l with
  | nil => rfl
  | cons b t ih =>
    rw [bytesAt] at ih ⊢
    rw [List.length_cons, List.range_succ_eq_map, List.map_cons, List.map_map]
    simp only [Nat.zero_add, byteAt]
    congr 1
    simpa [Function.comp] using ih

theorem bytesAt_take (f : List Nat) (off m n : Nat) (h : m ≤ n) :
    (bytesAt f off n).take m = bytesAt f off m := by
  apply List.ext_getElem
  · simp [bytesAt, Nat.min_eq_left h]
  · intro j h1 h2
    simp [bytesAt]

theorem bytesAt_drop (f : List Nat) (off m n : Nat) :
    (bytesAt f off n).drop m = bytesAt f (off + m) (n - m) := by
  apply List.ext_getElem
  · simp [bytesAt]
  · intro j h1 h2
    simp only [bytesAt, List.getElem_drop, List.getElem_map, List.getElem_range]
    congr 1
    omega

/-! ### Encoding / decoding lemmas -/

theorem length_encLE (k : Nat) : ∀ v, (encLE k v).length = k := by
  induction k with
  | zero => intro v; rfl
  | succ m ih => intro v; simp [encLE, ih]

theorem mem_encLE_lt (k : Nat) : ∀ v b, b ∈ encLE k v → b < 256 := by
  induction k with
  | zero => intro v b h; simp [encLE] at h
  | succ m ih =>
    intro v b h
    rw [encLE, List.mem_cons] at h
    rcases h with h | h
    · subst h; exact Nat.mod_lt _ (by omega)
    · exact ih _ b h

theorem length_be64 (v : Nat) : (be64 v).length = 8 := by
  simp [be64, length_encLE]

theorem mem_be64_lt (v b : Nat) (h : b ∈ be64 v) : b < 256 := by
  rw [be64, List.mem_reverse] at h
  exact mem_encLE_lt 8 v b h

/-- The digit-peeling identity behind both byte orders. -/
theorem mod_pow_split (v k : Nat) :
    (v / 256 % 256 ^ k) * 256 + v % 256 = v % 256 ^ (k + 1) := by
  have h1 : v = 256 ^ (k + 1) * (v / 256 / 256 ^ k) + ((v / 256 % 256 ^ k) * 256 + v % 256) := by
    have e1 : v = 256 * (v / 256) + v % 256 := by omega
    have e2 : v / 256 = 256 ^ k * (v / 256 / 256 ^ k) + v / 256 % 256 ^ k :=
      (Nat.div_add_mod (v / 256) (256 ^ k)).symm
    calc v = 256 * (v / 256) + v % 256 := e1
    _ = 256 * (256 ^ k * (v / 256 / 256 ^ k) + v / 256 % 256 ^ k) + v % 256 := by rw [← e2]
    _ = 256 ^ (k + 1) * (v / 256 / 256 ^ k) + ((v / 256 % 256 ^ k) * 256 + v % 256) := by
        rw [pow_succ]; ring
  have hlt : (v / 256 % 256 ^ k) * 256 + v % 256 < 256 ^ (k + 1) := by
    have a1 : v / 256 % 256 ^ k < 256 ^ k := Nat.mod_lt _ (Nat.pos_pow_of_pos k (by omega))
    have a2 : v % 256 < 256 := Nat.mod_lt _ (by omega)
    have : (v / 256 % 256 ^ k) * 256 + v % 256 ≤ (256 ^ k - 1) * 256 + 255 := by
      have := Nat.mul_le_mul_right 256 (Nat.le_sub_one_of_lt a1)
      omega
    have hp : 1 ≤ 256 ^ k := Nat.one_le_pow k 256 (by omega)
    rw [pow_succ]
    calc (v / 256 % 256 ^ k) * 256 + v % 256 ≤ (256 ^ k - 1) * 256 + 255 := this
    _ < 256 ^ k * 256 := by
        rw [Nat.sub_mul, Nat.one_mul]
        omega
  calc (v / 256 % 256 ^ k) * 256 + v % 256
      = (256 ^ (k + 1) * (v / 256 / 256 ^ k) + ((v / 256 % 256 ^ k) * 256 + v % 256))
          % 256 ^ (k + 1) := by
        rw [Nat.mul_add_mod, Nat.mod_eq_of_lt hlt]
  _ = v % 256 ^ (k + 1) := by rw [← h1]

theorem decBE_reverse_encLE (k : Nat) : ∀ v, decBE ((encLE k v).reverse) = v % 256 ^ k := by
  induction k with
  | zero => intro v; simp [encLE, decBE, Nat.mod_one]
  | succ m ih =>
    intro v
    rw [encLE, List.reverse_cons, decBE, List.foldl_append]
    have : List.foldl (fun a b => a * 256 + b) 0 (encLE m (v / 256)).reverse
        = v / 256 % 256 ^ m := ih (v / 256)
    rw [this]
    simpa using mod_pow_split v m

theorem decBE_be64 (v : Nat) : decBE (be64 v) = v % 2 ^ 64 := by
  have : (256 : Nat) ^ 8 = 2 ^ 64 := by norm_num
  rw [be64, decBE_reverse_encLE 8 v, this]

theorem decLE_encLE (k : Nat) : ∀ v, decLE (encLE k v) = v % 256 ^ k := by
  induction k with
  | zero => intro v; simp [encLE, decLE, Nat.mod_one]
  | succ m ih =>
    intro v
    rw [encLE, decLE, List.foldr_cons]
    have : List.foldr (fun b a => a * 256 + b) 0 (encLE m (v / 256)) = v / 256 % 256 ^ m := ih _
    rw [this]
    exact mod_pow_split v m

theorem decBE_lt_aux (l : List Nat) : ∀ a K, (∀ b ∈ l, b < 256) → a < K →
    List.foldl (fun x b => x * 256 + b) a l < K * 256 ^ l.length := by
  induction l with
  | nil => intro a K _ h; simpa using h
  | cons b t ih =>
    intro a K hb ha
    rw [List.foldl_cons]
    have hb0 : b < 256 := hb b (by simp)
    have step : a * 256 + b < K * 256 := by
      have : a ≤ K - 1 := by omega
      have := Nat.mul_le_mul_right 256 this
      have hK : 1 ≤ K := by omega
      rw [Nat.sub_mul, Nat.one_mul] at this
      omega
    have := ih (a * 256 + b) (K * 256) (fun x hx => hb x (by simp [hx])) step
    calc List.foldl (fun x b => x * 256 + b) (a * 256 + b) t
        < K * 256 * 256 ^ t.length := this
    _ = K * 256 ^ (t.length + 1) := by rw [pow_succ]; ring
    _ = K * 256 ^ (b :: t).length := by simp

theorem decBE_lt (l : List Nat) (h : ∀ b ∈ l, b < 256) : decBE l < 256 ^ l.length := by
  have := decBE_lt_aux l 0 1 h (by omega)
  simpa [decBE] using this

theorem length_headerBytes (t u : Nat) : (headerBytes t u).length = 16 := by
  simp [headerBytes, length_be64]

theorem length_pad36 (tok : List Nat) : (pad36 tok).length = 36 := by
  simp [pad36]

theorem length_recordBytes (num st : Nat) (tok : List Nat) :
    (recordBytes num st tok).length = 45 := by
  simp [recordBytes, length_be64, length_pad36]

theorem mem_headerBytes_lt (t u b : Nat) (h : b ∈ headerBytes t u) : b < 256 := by
  rw [headerBytes, List.mem_append] at h
  rcases h with h | h
  · exact mem_be64_lt t b h
  · exact mem_be64_lt u b h

theorem mem_recordBytes_lt (num st : Nat) (tok : List Nat) (b : Nat)
    (h : b ∈ recordBytes num st tok) : b < 256 := by
  rw [recordBytes, List.mem_append, List.mem_append] at h
  rcases h with (h | h) | h
  · exact mem_be64_lt num b h
  · simp at h; subst h; exact Nat.mod_lt _ (by omega)
  · rw [pad36, List.mem_map] at h
    obtain ⟨i, _, hi⟩ := h
    subst hi
    exact Nat.mod_lt _ (by omega)

/-! ### Lemmas about `AppendRecord` -/

theorem byteAt_getElem (l : List Nat) : ∀ (j : Nat) (h : j < l.length), byteAt l j = l[j] := by
  induction l with
  | nil => intro j h; simp at h
  | cons b t ih =>
    intro j h
    cases j with
    | zero => rfl
    | succ k => exact ih k (by simpa using h)

theorem byteAt_lt (l : List Nat) (i : Nat) (h : ∀ b ∈ l, b < 256) : byteAt l i < 256 := by
  by_cases hi : i < l.length
  · rw [byteAt_getElem l i hi]
    exact h _ (List.getElem_mem hi)
  · rw [byteAt_of_length_le l i (by omega)]
    omega

theorem mem_writeAt_lt (f : List Nat) (off : Nat) (bs : List Nat)
    (hf : ∀ b ∈ f, b < 256) (hbs : ∀ b ∈ bs, b < 256) :
    ∀ b ∈ writeAt f off bs, b < 256 := by
  intro b hb
  rw [writeAt, List.mem_map] at hb
  obtain ⟨i, _, hi⟩ := hb
  subst hi
  by_cases hc : off ≤ i ∧ i < off + bs.length
  · rw [if_pos hc]
    exact byteAt_lt bs (i - off) hbs
  · rw [if_neg hc]
    exact byteAt_lt f i hf

theorem AppendRecord_eq (f : List Nat) (tok : List Nat) (s : Nat)
    (h : f = [] ∨ 16 ≤ f.length) :
    AppendRecord f tok s = .ok (appendCore f tok s (totalRecordsOf f) (lastUpdatedOf f)) := by
  rcases h with h | h
  · subst h
    rfl
  · rw [AppendRecord, readFull, if_pos (by omega)]
    show Except.ok (appendCore f tok s (decBE ((bytesAt f 0 16).take 8))
      (decBE ((bytesAt f 0 16).drop 8))) = _
    rw [bytesAt_take f 0 8 16 (by omega), bytesAt_drop f 0 8 16]
    rfl

theorem AppendRecord_ok_inv (f tok : List Nat) (s n : Nat) (f' : List Nat)
    (h : AppendRecord f tok s = .ok (n, f')) :
    (f = [] ∨ 16 ≤ f.length) ∧
      (n, f') = appendCore f tok s (totalRecordsOf f) (lastUpdatedOf f) := by
  have hcase : f = [] ∨ 16 ≤ f.length := by
    by_contra hc
    push_neg at hc
    obtain ⟨h1, h2⟩ := hc
    have hlen : 0 < f.length := by
      cases f with
      | nil => exact absurd rfl h1
      | cons a t => simp
    rw [AppendRecord, readFull, if_neg (by omega), if_neg (by omega)] at h
    exact Except.noConfusion h
  refine ⟨hcase, ?_⟩
  rw [AppendRecord_eq f tok s hcase] at h
  exact (Except.ok.injEq _ _).mp h |>.symm

theorem appendCore_fst (f tok : List Nat) (s t u : Nat) :
    (appendCore f tok s t u).1 = (t + 1) % 2 ^ 64 := rfl

theorem length_appendCore (f tok : List Nat) (s t u : Nat) :
    (appendCore f tok s t u).2.length = max f.length 16 + 45 := by
  rw [appendCore]
  simp only [length_writeAt, length_headerBytes, length_recordBytes]
  omega

theorem totalRecordsOf_appendCore (f tok : List Nat) (s t u : Nat) :
    totalRecordsOf (appendCore f tok s t u).2 = (t + 1) % 2 ^ 64 := by
  have ht' : (t + 1) % 2 ^ 64 < 2 ^ 64 := Nat.mod_lt _ (by norm_num)
  have hb : bytesAt (appendCore f tok s t u).2 0 8 = be64 ((t + 1) % 2 ^ 64) := by
    apply List.ext_getElem
    · simp [length_bytesAt, length_be64]
    · intro j h1 h2
      simp only [length_bytesAt] at h1
      simp only [bytesAt, List.getElem_map, List.getElem_range]
      rw [appendCore]
      simp only []
      rw [byteAt_writeAt]
      have hL1 : 16 ≤ (writeAt f 0 (headerBytes ((t + 1) % 2 ^ 64)
          (if (t + 1) % 2 ^ 64 = 1 then 0 else u))).length := by
        rw [length_writeAt, length_headerBytes]
        omega
      rw [if_neg (by omega)]
      rw [byteAt_writeAt]
      rw [length_headerBytes, if_pos (by omega)]
      rw [headerBytes]
      rw [byteAt_append_left _ _ _ (by rw [length_be64]; omega)]
      rw [byteAt_getElem _ _ (by rw [length_be64]; omega)]
      congr 1
      omega
  rw [totalRecordsOf, hb, decBE_be64, Nat.mod_eq_of_lt ht']

theorem lastUpdatedOf_appendCore (f tok : List Nat) (s t u : Nat) :
    lastUpdatedOf (appendCore f tok s t u).2 =
      (if (t + 1) % 2 ^ 64 = 1 then 0 else u % 2 ^ 64) := by
  have hb : bytesAt (appendCore f tok s t u).2 8 8 =
      be64 (if (t + 1) % 2 ^ 64 = 1 then 0 else u) := by
    apply List.ext_getElem
    · simp [length_bytesAt, length_be64]
    · intro j h1 h2
      simp only [length_bytesAt] at h1
      simp only [bytesAt, List.getElem_map, List.getElem_range]
      rw [appendCore]
      simp only []
      rw [byteAt_writeAt]
      have hL1 : 16 ≤ (writeAt f 0 (headerBytes ((t + 1) % 2 ^ 64)
          (if (t + 1) % 2 ^ 64 = 1 then 0 else u))).length := by
        rw [length_writeAt, length_headerBytes]
        omega
      rw [if_neg (by omega)]
      rw [byteAt_writeAt]
      rw [length_headerBytes, if_pos (by omega)]
      rw [headerBytes]
      rw [byteAt_append_right _ _ _ (by rw [length_be64]; omega)]
      rw [length_be64]
      rw [byteAt_getElem _ _ (by rw [length_be64]; omega)]
      congr 1
      omega
  rw [lastUpdatedOf, hb, decBE_be64]
  split <;> simp

theorem mem_appendCore_lt (f tok : List Nat) (s t u : Nat) (hf : ∀ b ∈ f, b < 256) :
    ∀ b ∈ (appendCore f tok s t u).2, b < 256 := by
  rw [appendCore]
  simp only []
  apply mem_writeAt_lt
  · apply mem_writeAt_lt _ _ _ hf
    intro b hb
    exact mem_headerBytes_lt _ _ b hb
  · intro b hb
    exact mem_recordBytes_lt _ _ _ b hb

/-- One successful append on a well-formed (or still absent) file: the
returned sequence number is the new `TotalRecords`, the file grows by one
45-byte slot, and the result is well-formed again. -/
theorem append_step (f tok : List Nat) (s : Nat) (h : f = [] ∨ wfFile f)
    (hlt : totalRecordsOf f + 1 < 2 ^ 64) :
    ∃ f', AppendRecord f tok s = .ok (totalRecordsOf f + 1, f') ∧ wfFile f' ∧
      totalRecordsOf f' = totalRecordsOf f + 1 := by
  have hlen : f = [] ∨ 16 ≤ f.length := by
    rcases h with h | h
    · exact Or.inl h
    · right; rw [h.2]; omega
  have hmod : (totalRecordsOf f + 1) % 2 ^ 64 = totalRecordsOf f + 1 := Nat.mod_eq_of_lt hlt
  refine ⟨(appendCore f tok s (totalRecordsOf f) (lastUpdatedOf f)).2, ?_, ?_, ?_⟩
  · rw [AppendRecord_eq f tok s hlen, ← hmod,
      ← appendCore_fst f tok s (totalRecordsOf f) (lastUpdatedOf f)]
  · constructor
    · apply mem_appendCore_lt
      rcases h with h | h
      · subst h; intro b hb; simp at hb
      · exact h.1
    · rw [length_appendCore, totalRecordsOf_appendCore, hmod]
      rcases h with h | h
      · subst h
        have : totalRecordsOf ([] : List Nat) = 0 := by decide
        rw [this] at hmod ⊢
        simp
      · rw [h.2]
        have : 16 ≤ 16 + 45 * totalRecordsOf f := by omega
        omega
  · rw [totalRecordsOf_appendCore, hmod]

/-- Reading the record count back from a well-formed file. -/
theorem GetLastNumber_wf (f : List Nat) (h : 16 ≤ f.length) :
    (GetLastNumber f).1 = .ok (totalRecordsOf f) := by
  rw [GetLastNumber, readFull, if_pos (by omega)]
  show (Except.ok (decBE ((bytesAt f 0 16).take 8)), (16 : Nat)).1 = _
  rw [bytesAt_take f 0 8 16 (by omega)]
  rfl

/-- Iterating: starting from record count `k`, the appends return
`k+1, k+2, …` in order and leave the count at `k + (number of appends)`. -/
theorem appendIter_spec : ∀ (toks : List (List Nat)) (f : List Nat) (s : Nat),
    (f = [] ∨ wfFile f) → totalRecordsOf f + toks.length < 2 ^ 64 →
    ∃ ff, appendIter f toks s = .ok (ff, List.range' (totalRecordsOf f + 1) toks.length) ∧
      (ff = [] ∨ wfFile ff) ∧ totalRecordsOf ff = totalRecordsOf f + toks.length := by
  intro toks
  induction toks with
  | nil =>
    intro f s h _
    exact ⟨f, rfl, h, by simp⟩
  | cons tok rest ih =>
    intro f s h hlt
    simp only [List.length_cons] at hlt
    obtain ⟨f', happ, hwf, hT⟩ := append_step f tok s h (by omega)
    obtain ⟨ff, hiter, hwf2, hT2⟩ := ih f' s (Or.inr hwf) (by omega)
    refine ⟨ff, ?_, hwf2, by rw [hT2, hT, List.length_cons]; omega⟩
    simp only [appendIter, happ, hiter, hT]
    rw [List.length_cons, List.range'_succ]

/-! ### Lemmas about `UpdateStatuses` and the lookups -/

theorem readFull_ok (f : List Nat) (off n : Nat) (h : off + n ≤ f.length) :
    readFull f off n = .ok (bytesAt f off n) := by
  rw [readFull, if_pos h]

theorem readFull_error (f : List Nat) (off n : Nat) (h : f.length < off + n) :
    ∃ e, readFull f off n = .error e := by
  rw [readFull, if_neg (by omega)]
  by_cases hc : f.length ≤ off
  · exact ⟨.eof, by rw [if_pos hc]⟩
  · exact ⟨.unexpectedEof, by rw [if_neg hc]⟩

theorem decBE_eight (F : List Nat) (off v : Nat)
    (h : ∀ j, j < 8 → byteAt F (off + j) = byteAt (be64 v) j) :
    decBE (bytesAt F off 8) = v % 2 ^ 64 := by
  have he : bytesAt F off 8 = be64 v := by
    apply List.ext_getElem
    · simp [length_bytesAt, length_be64]
    · intro j h1 h2
      simp only [length_bytesAt] at h1
      simp only [bytesAt, List.getElem_map, List.getElem_range]
      rw [h j h1]
      exact byteAt_getElem _ j (by rw [length_be64]; omega)
  rw [he, decBE_be64]

/-- When the plain offset value stays below 2^63 the wrapping int64
computation neither overflows nor goes negative, and agrees with it. -/
theorem seekOffset_eq (base extra n : Nat) (h1 : 1 ≤ n)
    (h2 : base + 45 * (n - 1) + extra < 2 ^ 63) :
    seekOffset base extra n = base + 45 * (n - 1) + extra := by
  rw [seekOffset]
  have hn64 : n < 2 ^ 64 := by omega
  rw [Nat.mod_eq_of_lt hn64]
  have h3 : (n + 2 ^ 64 - 1) % 2 ^ 64 = n - 1 := by omega
  rw [h3]
  omega

theorem updLoop_ok : ∀ (ns f : List Nat) (p : Nat),
    (∀ n ∈ ns, 1 ≤ n ∧ 24 + 45 * (n - 1) < 2 ^ 63) →
    ∃ f1 p1, updLoop f p ns = (none, f1, p1) ∧
      (∀ i, byteAt f1 i = if ∃ n ∈ ns, i = 24 + 45 * (n - 1) then 1 else byteAt f i) ∧
      f1.length = ns.foldl (fun L n => max L (24 + 45 * (n - 1) + 1)) f.length := by
  intro ns
  induction ns with
  | nil =>
    intro f p _
    refine ⟨f, p, rfl, ?_, rfl⟩
    intro i
    rw [if_neg (by simp)]
  | cons n rest ih =>
    intro f p hns
    have hn := hns n (by simp)
    have hoff : statusOffset n = 24 + 45 * (n - 1) := by
      rw [statusOffset, seekOffset_eq 16 8 n hn.1 (by omega)]
      omega
    obtain ⟨f1, p1, heq, hb, hl⟩ :=
      ih (writeAt f (24 + 45 * (n - 1)) [1]) (24 + 45 * (n - 1) + 1)
        (fun m hm => hns m (by simp [hm]))
    refine ⟨f1, p1, ?_, ?_, ?_⟩
    · simp only [updLoop]
      rw [hoff, if_neg (by omega)]
      exact heq
    · intro i
      rw [hb i]
      by_cases hi : ∃ m ∈ rest, i = 24 + 45 * (m - 1)
      · obtain ⟨m, hm, him⟩ := hi
        rw [if_pos ⟨m, hm, him⟩, if_pos ⟨m, List.mem_cons_of_mem n hm, him⟩]
      · rw [if_neg hi, byteAt_writeAt]
        by_cases hio : i = 24 + 45 * (n - 1)
        · rw [if_pos (by simp [hio])]
          have : i - (24 + 45 * (n - 1)) = 0 := by omega
          rw [this]
          rw [if_pos ⟨n, List.mem_cons_self n rest, hio⟩]
          rfl
        · rw [if_neg (by simp; omega)]
          rw [if_neg ?hc]
          case hc =>
            rintro ⟨m, hm, him⟩
            rcases List.mem_cons.mp hm with hm | hm
            · exact hio (by rw [him, hm])
            · exact hi ⟨m, hm, him⟩
    · rw [hl, length_writeAt, List.foldl_cons]
      simp

/-- The abort case of the write loop: the first listed number whose
wrapping int64 offset is negative fails the seek and stops the loop; the
earlier writes remain, nothing later is written. -/
theorem updLoop_abort : ∀ (ns1 : List Nat) (n0 : Nat) (ns2 f : List Nat) (p : Nat),
    (∀ n ∈ ns1, 1 ≤ n ∧ 24 + 45 * (n - 1) < 2 ^ 63) → 2 ^ 63 ≤ statusOffset n0 →
    ∃ f1 p1, updLoop f p (ns1 ++ n0 :: ns2) = (some .negOffset, f1, p1) ∧
      (∀ i, byteAt f1 i = if ∃ n ∈ ns1, i = 24 + 45 * (n - 1) then 1 else byteAt f i) := by
  intro ns1
  induction ns1 with
  | nil =>
    intro n0 ns2 f p _ hbad
    refine ⟨f, p, ?_, ?_⟩
    · simp only [List.nil_append, updLoop]
      rw [if_pos hbad]
    · intro i
      rw [if_neg (by simp)]
  | cons n rest ih =>
    intro n0 ns2 f p hns hbad
    have hn := hns n (by simp)
    have hoff : statusOffset n = 24 + 45 * (n - 1) := by
      rw [statusOffset, seekOffset_eq 16 8 n hn.1 (by omega)]
      omega
    obtain ⟨f1, p1, heq, hb⟩ := ih n0 ns2 (writeAt f (24 + 45 * (n - 1)) [1])
      (24 + 45 * (n - 1) + 1) (fun m hm => hns m (by simp [hm])) hbad
    refine ⟨f1, p1, ?_, ?_⟩
    · simp only [List.cons_append, updLoop]
      rw [hoff, if_neg (by omega)]
      exact heq
    · intro i
      rw [hb i]
      by_cases hi : ∃ m ∈ rest, i = 24 + 45 * (m - 1)
      · obtain ⟨m, hm, him⟩ := hi
        rw [if_pos ⟨m, hm, him⟩, if_pos ⟨m, List.mem_cons_of_mem n hm, him⟩]
      · rw [if_neg hi, byteAt_writeAt]
        by_cases hio : i = 24 + 45 * (n - 1)
        · rw [if_pos (by simp [hio])]
          have h0 : i - (24 + 45 * (n - 1)) = 0 := by omega
          rw [h0, if_pos ⟨n, List.mem_cons_self n rest, hio⟩]
          rfl
        · rw [if_neg (by simp; omega), if_neg ?hc]
          case hc =>
            rintro ⟨m, hm, him⟩
            rcases List.mem_cons.mp hm with hm | hm
            · exact hio (by rw [him, hm])
            · exact hi ⟨m, hm, him⟩

theorem foldl_max_eq : ∀ (ns : List Nat) (L : Nat),
    (∀ n ∈ ns, 24 + 45 * (n - 1) + 1 ≤ L) →
    ns.foldl (fun L n => max L (24 + 45 * (n - 1) + 1)) L = L := by
  intro ns
  induction ns with
  | nil => intro L _; rfl
  | cons n rest ih =>
    intro L h
    rw [List.foldl_cons, Nat.max_eq_left (h n (by simp))]
    exact ih L (fun m hm => h m (by simp [hm]))

/-- The success case of `UpdateStatuses`: given a readable header position
and no zero sequence number, the batch never fails; the resulting file is
the loop result `f1` with the header rewritten at offset 0. -/
theorem UpdateStatuses_ok (f : List Nat) (p : Nat) (ns : List Nat)
    (hne : ns ≠ []) (hp : p + 16 ≤ f.length)
    (hns : ∀ n ∈ ns, 1 ≤ n ∧ 24 + 45 * (n - 1) < 2 ^ 63) :
    ∃ f1, UpdateStatuses f p ns =
        ⟨none, writeAt f1 0 (headerBytes (decBE (bytesAt f p 8)) (ns.getLastD 0)), 16⟩ ∧
      (∀ i, byteAt f1 i = if ∃ n ∈ ns, i = 24 + 45 * (n - 1) then 1 else byteAt f i) ∧
      f1.length = ns.foldl (fun L n => max L (24 + 45 * (n - 1) + 1)) f.length := by
  obtain ⟨f1, p1, heq, hb, hl⟩ := updLoop_ok ns f (p + 16) hns
  refine ⟨f1, ?_, hb, hl⟩
  rw [UpdateStatuses, if_neg hne, readFull_ok f p 16 hp]
  show (match updLoop f (p + 16) ns with
    | (some e, f1, p1) => UpdResult.mk (some e) f1 p1
    | (none, f1, _) =>
      UpdResult.mk none
        (writeAt f1 0 (headerBytes (decBE ((bytesAt f p 16).take 8)) (ns.getLastD 0))) 16) = _
  rw [heq, bytesAt_take f p 8 16 (by omega)]

/-- Observable effects of a successful batch update. -/
theorem UpdateStatuses_spec (f : List Nat) (p : Nat) (ns : List Nat)
    (hne : ns ≠ []) (hp : p + 16 ≤ f.length)
    (hns : ∀ n ∈ ns, 1 ≤ n ∧ 24 + 45 * (n - 1) < 2 ^ 63) :
    (UpdateStatuses f p ns).err = none ∧ (UpdateStatuses f p ns).pos = 16 ∧
      (UpdateStatuses f p ns).file.length =
        max (ns.foldl (fun L n => max L (24 + 45 * (n - 1) + 1)) f.length) 16 ∧
      (∀ n ∈ ns, byteAt (UpdateStatuses f p ns).file (24 + 45 * (n - 1)) = 1) ∧
      (∀ i, 16 ≤ i → (¬∃ n ∈ ns, i = 24 + 45 * (n - 1)) →
        byteAt (UpdateStatuses f p ns).file i = byteAt f i) ∧
      totalRecordsOf (UpdateStatuses f p ns).file = decBE (bytesAt f p 8) % 2 ^ 64 ∧
      lastUpdatedOf (UpdateStatuses f p ns).file = ns.getLastD 0 % 2 ^ 64 := by
  obtain ⟨f1, heq, hb, hl⟩ := UpdateStatuses_ok f p ns hne hp hns
  rw [heq]
  simp only []
  refine ⟨trivial, trivial, ?_, ?_, ?_, ?_, ?_⟩
  · rw [length_writeAt, length_headerBytes, hl]
  · intro n hn
    rw [byteAt_writeAt, length_headerBytes, if_neg (by omega)]
    rw [hb, if_pos ⟨n, hn, rfl⟩]
  · intro i hi hni
    rw [byteAt_writeAt, length_headerBytes, if_neg (by omega)]
    rw [hb, if_neg hni]
  · apply decBE_eight
    intro j hj
    rw [byteAt_writeAt, length_headerBytes, if_pos (by omega)]
    rw [headerBytes, byteAt_append_left _ _ _ (by rw [length_be64]; omega)]
    congr 1
    omega
  · apply decBE_eight
    intro j hj
    rw [byteAt_writeAt, length_headerBytes, if_pos (by omega)]
    rw [headerBytes, byteAt_append_right _ _ _ (by rw [length_be64]; omega)]
    rw [length_be64]
    congr 1
    omega

/-- A successful in-bounds `GetStatus` returns the status byte of record
`n` (offset `headerSize + (n-1)*recordSize + 8`). -/
theorem GetStatus_ok (f : List Nat) (p n : Nat) (hp : p + 16 ≤ f.length) (hn : 1 ≤ n)
    (hrec : 16 + 45 * (n - 1) + 45 ≤ f.length) (hsz : f.length < 2 ^ 63) :
    (GetStatus f p n).1 = .ok (byteAt f (24 + 45 * (n - 1))) := by
  have hoff : recordOffset n = 16 + 45 * (n - 1) := by
    have he := seekOffset_eq 16 0 n hn (by omega)
    rw [recordOffset, he]
    omega
  have h2 : readFull f (16 + 45 * (n - 1)) 45 = .ok (bytesAt f (16 + 45 * (n - 1)) 45) :=
    readFull_ok f _ 45 (by omega)
  simp only [GetStatus, readFull_ok f p 16 hp, hoff, h2,
    if_neg (show ¬ 2 ^ 63 ≤ 16 + 45 * (n - 1) by omega)]
  rw [byteAt_bytesAt f _ 45 8 (by omega)]
  have he2 : 16 + 45 * (n - 1) + 8 = 24 + 45 * (n - 1) := by omega
  rw [he2]

/-- Reading `LastUpdated` back from a long-enough file. -/
theorem GetLastUpdateNumber_wf (f : List Nat) (h : 16 ≤ f.length) :
    (GetLastUpdateNumber f).1 = .ok (lastUpdatedOf f) := by
  rw [GetLastUpdateNumber, readFull_ok f 0 16 (by omega)]
  show (Except.ok (decBE ((bytesAt f 0 16).drop 8)), (16 : Nat)).1 = _
  rw [bytesAt_drop f 0 8 16]
  rfl

theorem totalRecordsOf_lt (f : List Nat) (h : ∀ b ∈ f, b < 256) :
    totalRecordsOf f < 2 ^ 64 := by
  have hb : ∀ b ∈ bytesAt f 0 8, b < 256 := by
    intro b hbm
    rw [bytesAt, List.mem_map] at hbm
    obtain ⟨j, _, hj⟩ := hbm
    rw [← hj]
    exact byteAt_lt f _ h
  have hd := decBE_lt _ hb
  rw [length_bytesAt] at hd
  calc totalRecordsOf f < 256 ^ 8 := hd
  _ = 2 ^ 64 := by norm_num

theorem getLastD_mem : ∀ (ns : List Nat), ns ≠ [] → ∀ d, ns.getLastD d ∈ ns := by
  intro ns
  induction ns with
  | nil => intro h; exact absurd rfl h
  | cons a l ih =>
    intro _ d
    rw [List.getLastD_cons]
    cases l with
    | nil => simp [List.getLastD]
    | cons b m => exact List.mem_cons_of_mem a (ih (by simp) a)

theorem foldl_max_ge : ∀ (ns : List Nat) (L : Nat),
    L ≤ ns.foldl (fun L n => max L (24 + 45 * (n - 1) + 1)) L := by
  intro ns
  induction ns with
  | nil => intro L; exact Nat.le_refl L
  | cons n rest ih =>
    intro L
    rw [List.foldl_cons]
    exact Nat.le_trans (Nat.le_max_left _ _) (ih _)

/-! ### The claims -/

/-- Claim C1: starting from an absent file, the Nth successful append
returns sequence number N (the results of the iterated appends are exactly
`[1, …, N]`), and `GetLastNumber` (the record count) afterwards returns the
number of appends; moreover every successful append returns exactly the
header's `TotalRecords` as read back from disk after the call, and the
append result depends only on the on-disk file — not on the handle cache —
so the guarantee survives a close-and-reopen of the store (`AppendRecord`
re-reads the header from offset 0 of a fresh handle on every call). -/
theorem claim1_nth_append (toks : List (List Nat)) (s : Nat) (h : toks.length < 2 ^ 64) :
    (∃ ff, appendIter [] toks s = .ok (ff, List.range' 1 toks.length) ∧
      (toks ≠ [] → (GetLastNumber ff).1 = .ok toks.length)) ∧
    (∀ f tok n f', AppendRecord f tok s = .ok (n, f') → (GetLastNumber f').1 = .ok n) ∧
    (∀ (st1 st2 : KeyState) (tok : List Nat), st1.file = st2.file →
      (AppendRecordState st1 tok s).map (fun r => (r.1, r.2.file)) =
        (AppendRecordState st2 tok s).map (fun r => (r.1, r.2.file))) := by
  have h0 : totalRecordsOf ([] : List Nat) = 0 := by decide
  refine ⟨?_, ?_, ?_⟩
  · obtain ⟨ff, hit, hwf, hT⟩ :=
      appendIter_spec toks [] s (Or.inl rfl) (by rw [h0]; omega)
    rw [h0] at hit hT
    refine ⟨ff, by simpa using hit, ?_⟩
    intro hne
    have hpos : 1 ≤ toks.length := List.length_pos.mpr hne
    have hTff : totalRecordsOf ff = toks.length := by omega
    have hwf2 : wfFile ff := by
      rcases hwf with hwf | hwf
      · rw [hwf, h0] at hTff; omega
      · exact hwf
    rw [GetLastNumber_wf ff (by rw [hwf2.2]; omega), hTff]
  · intro f tok n f' happ
    obtain ⟨_, hpair⟩ := AppendRecord_ok_inv f tok s n f' happ
    have hn : n = (totalRecordsOf f + 1) % 2 ^ 64 := by
      simpa [appendCore_fst] using congrArg Prod.fst hpair
    have hf' : f' = (appendCore f tok s (totalRecordsOf f) (lastUpdatedOf f)).2 :=
      congrArg Prod.snd hpair
    have hlen : 16 ≤ f'.length := by
      rw [hf', length_appendCore]; omega
    rw [GetLastNumber_wf f' hlen, hf', totalRecordsOf_appendCore, ← hn]
  · intro st1 st2 tok hf
    rw [AppendRecordState, AppendRecordState, hf]
    cases happ : AppendRecord (st2.file.getD []) tok s with
    | error e => rfl
    | ok v => obtain ⟨n, f'⟩ := v; rfl

/-- Claim C9: with the per-key exclusive lock held for the whole critical
section, N concurrent appends on one key execute as N consecutive appends
in some order; all succeed and the returned sequence numbers form exactly
the multiset {1, …, N} — pairwise distinct, no gaps, no duplicates. -/
theorem claim9_concurrent_appends (toks : List (List Nat)) (s : Nat)
    (h : toks.length < 2 ^ 64) :
    ∃ ff rets, appendIter [] toks s = .ok (ff, rets) ∧
      rets.Perm (List.range' 1 toks.length) ∧ rets.Nodup ∧
      rets.length = toks.length := by
  have h0 : totalRecordsOf ([] : List Nat) = 0 := by decide
  obtain ⟨ff, hit, _, _⟩ := appendIter_spec toks [] s (Or.inl rfl) (by rw [h0]; omega)
  rw [h0] at hit
  refine ⟨ff, List.range' 1 toks.length, by simpa using hit, List.Perm.refl _, ?_, ?_⟩
  · exact List.nodup_range' 1 toks.length
  · simp

/-- Claim C2: after a successful batch update `setStatuses(key, ns)` on a
well-formed file with at least `max ns` records (`ns` nonempty, every
listed number in range — order and duplicates are irrelevant), `getStatus`
returns 1 for every listed record and `getLastUpdated` returns the *last
element* of `ns`, the header's `LastUpdated` having been overwritten with
`ns[len-1]`.  The file is assumed smaller than 2^63 bytes — the int64
seek-offset space, a bound every file the OS can hold satisfies — so the
in-range record offsets are the plain (non-wrapping) ones and the seeks of
a successful update succeed. -/
theorem claim2_batch_update (f : List Nat) (p : Nat) (ns : List Nat)
    (hwf : wfFile f) (hne : ns ≠ []) (hp : p + 16 ≤ f.length)
    (hsz : f.length < 2 ^ 63)
    (hns : ∀ n ∈ ns, 1 ≤ n ∧ n ≤ totalRecordsOf f) :
    (UpdateStatuses f p ns).err = none ∧
    (∀ n ∈ ns,
      (GetStatus (UpdateStatuses f p ns).file (UpdateStatuses f p ns).pos n).1 = .ok 1) ∧
    (GetLastUpdateNumber (UpdateStatuses f p ns).file).1 = .ok (ns.getLastD 0) := by
  have hflen : f.length = 16 + 45 * totalRecordsOf f := hwf.2
  obtain ⟨herr, hpos, hlen, hstat, _, _, hLast⟩ :=
    UpdateStatuses_spec f p ns hne hp
      (fun n hn => ⟨(hns n hn).1, by have h2 := (hns n hn).2; omega⟩)
  have hTpos : 1 ≤ totalRecordsOf f := by
    obtain ⟨n0, hn0⟩ := List.exists_mem_of_ne_nil ns hne
    have := hns n0 hn0
    omega
  have hfold : ns.foldl (fun L n => max L (24 + 45 * (n - 1) + 1)) f.length = f.length := by
    apply foldl_max_eq
    intro n hn
    have := hns n hn
    omega
  have hlen2 : (UpdateStatuses f p ns).file.length = f.length := by
    rw [hlen, hfold]
    omega
  refine ⟨herr, ?_, ?_⟩
  · intro n hn
    have hrange := hns n hn
    rw [hpos]
    rw [GetStatus_ok _ 16 n (by omega) (by omega) (by rw [hlen2]; omega)
      (by rw [hlen2]; omega)]
    rw [hstat n hn]
  · rw [GetLastUpdateNumber_wf _ (by omega), hLast]
    have hmem := getLastD_mem ns hne 0
    have hub := hns _ hmem
    have hTlt := totalRecordsOf_lt f hwf.1
    rw [Nat.mod_eq_of_lt (by omega)]

set_option maxRecDepth 8000 in
/-- Claim C3 counterexample: a status update *can* change the file length
and *can* change `totalRecords`.  On the one-record file, the batch
`setStatuses [2]` writes its status byte past end of file and grows the
file from 61 to 70 bytes; on the two-record file, a batch run while the
cached handle sits at position 16 (where the previous successful batch
left it) reads record 1's bytes as the header and rewrites `TotalRecords`
from 2 to 1. -/
theorem claim3_counterexample :
    fileOne.length = 61 ∧ (UpdateStatuses fileOne 0 [2]).file.length = 70 ∧
    totalRecordsOf fileTwo = 2 ∧
    totalRecordsOf (UpdateStatuses fileTwo 16 [1]).file = 1 := by
  refine ⟨by decide, by decide, by decide, by decide⟩

/-- Claim C3 amended: a status update performed with the cached handle at
position 0 and every listed number within `[1, totalRecords]` changes
neither the file length nor `totalRecords`, and leaves every byte of every
unlisted record (sequence number, status and token) unchanged; likewise the
single-record `UpdateStatus` of `part_004` never touches the header and
changes no byte other than the addressed status byte.  Both files are
assumed smaller than 2^63 bytes (the int64 seek-offset space, satisfied by
every file the OS can hold), so the in-range offsets do not wrap.
(Out-of-range numbers instead grow the file, and a batch started at a
nonzero handle position rewrites `totalRecords` with whatever bytes it
read — the counterexample.) -/
theorem claim3_amended (f : List Nat) (ns : List Nat) (n s : Nat)
    (hwf : wfFile f) (hne : ns ≠ []) (hsz : f.length < 2 ^ 63)
    (hns : ∀ m ∈ ns, 1 ≤ m ∧ m ≤ totalRecordsOf f)
    (g : List Nat) (hwfg : wfFile004 g) (hszg : g.length < 2 ^ 63)
    (hn1 : 1 ≤ n) (hn2 : n ≤ lastNumberOf004 g) :
    ((UpdateStatuses f 0 ns).err = none ∧
      (UpdateStatuses f 0 ns).file.length = f.length ∧
      totalRecordsOf (UpdateStatuses f 0 ns).file = totalRecordsOf f ∧
      (∀ m, 1 ≤ m → m ≤ totalRecordsOf f → m ∉ ns →
        bytesAt (UpdateStatuses f 0 ns).file (16 + 45 * (m - 1)) 45 =
          bytesAt f (16 + 45 * (m - 1)) 45)) ∧
    (∃ g', UpdateStatus g n s = .ok g' ∧ g'.length = g.length ∧
      lastNumberOf004 g' = lastNumberOf004 g ∧
      (∀ i, i ≠ 8 + 45 * (n - 1) + 8 → byteAt g' i = byteAt g i)) := by
  have hflen : f.length = 16 + 45 * totalRecordsOf f := hwf.2
  constructor
  · obtain ⟨herr, _, hlen, _, hother, hTot, _⟩ :=
      UpdateStatuses_spec f 0 ns hne (by omega)
        (fun m hm => ⟨(hns m hm).1, by have h2 := (hns m hm).2; omega⟩)
    have hfold : ns.foldl (fun L m => max L (24 + 45 * (m - 1) + 1)) f.length
        = f.length := by
      apply foldl_max_eq
      intro m hm
      have := hns m hm
      omega
    refine ⟨herr, by rw [hlen, hfold]; omega, ?_, ?_⟩
    · rw [hTot]
      exact Nat.mod_eq_of_lt (totalRecordsOf_lt f hwf.1)
    · intro m hm1 hm2 hm3
      apply List.ext_getElem
      · simp [length_bytesAt]
      · intro j h1 h2
        simp only [length_bytesAt] at h1
        simp only [bytesAt, List.getElem_map, List.getElem_range]
        apply hother
        · omega
        · rintro ⟨nn, hmem, heq⟩
          have hnn := hns nn hmem
          have : m = nn := by omega
          exact hm3 (this ▸ hmem)
  · have hglen : g.length = 8 + 45 * lastNumberOf004 g := hwfg.2
    have hoff : seekOffset 8 8 n = 8 + 45 * (n - 1) + 8 :=
      seekOffset_eq 8 8 n hn1 (by omega)
    refine ⟨writeAt g (8 + 45 * (n - 1) + 8) [s % 256], ?_, ?_, ?_, ?_⟩
    · simp only [UpdateStatus]
      rw [hoff, if_neg (by omega)]
    · rw [length_writeAt]
      simp only [List.length_singleton]
      omega
    · have hsame : bytesAt (writeAt g (8 + 45 * (n - 1) + 8) [s % 256]) 0 8
          = bytesAt g 0 8 := by
        apply List.ext_getElem
        · simp [length_bytesAt]
        · intro j h1 h2
          simp only [length_bytesAt] at h1
          simp only [bytesAt, List.getElem_map, List.getElem_range]
          rw [byteAt_writeAt]
          simp only [List.length_singleton]
          rw [if_neg (by omega)]
      rw [lastNumberOf004, lastNumberOf004, hsame]
    · intro i hi
      rw [byteAt_writeAt]
      simp only [List.length_singleton]
      rw [if_neg (by omega)]

set_option maxRecDepth 8000 in
/-- Claim C4 counterexample: a batch containing a sequence number greater
than `totalRecords` does *not* return an error and does *not* abort: on the
one-record file, `setStatuses [2]` completes without error, the
out-of-range element's status byte *is* written (at offset 69, past the
single record), and `lastUpdated` is still set to 2. -/
theorem claim4_counterexample :
    (UpdateStatuses fileOne 0 [2]).err = none ∧
    byteAt (UpdateStatuses fileOne 0 [2]).file 69 = 1 ∧
    (GetLastUpdateNumber (UpdateStatuses fileOne 0 [2]).file).1 = .ok 2 := by
  refine ⟨by decide, by decide, by rfl⟩

/-- Claim C4 amended: `UpdateStatuses` never checks a number against
`totalRecords`.  A listed number whose wrapping int64 status offset does
not overflow (`24 + 45*(n-1) < 2^63`, roughly `n ≤ 2.05e17`) is seekable
whether or not it is in range: when every listed number is such, the batch
completes with no error, writes every listed status byte — a number beyond
`totalRecords` writes past end of file, growing it — and sets `lastUpdated`
to the last element.  A batch is aborted only by a seek failure: at the
first listed number whose wrapped offset is negative (0, or huge values
such as `2^63 + 1`), the batch stops with an error; the earlier writes
remain on disk, no later element is written, and the header (including
`lastUpdated` and `totalRecords`) is not rewritten. -/
theorem claim4_amended (f : List Nat) (p : Nat) (ns : List Nat)
    (hne : ns ≠ []) (hp : p + 16 ≤ f.length)
    (hns : ∀ n ∈ ns, 1 ≤ n ∧ 24 + 45 * (n - 1) < 2 ^ 63)
    (ns1 : List Nat) (n0 : Nat) (ns2 : List Nat)
    (hns1 : ∀ n ∈ ns1, 1 ≤ n ∧ 24 + 45 * (n - 1) < 2 ^ 63)
    (hbad : 2 ^ 63 ≤ statusOffset n0) :
    ((UpdateStatuses f p ns).err = none ∧
      (∀ n ∈ ns, byteAt (UpdateStatuses f p ns).file (24 + 45 * (n - 1)) = 1) ∧
      f.length ≤ (UpdateStatuses f p ns).file.length ∧
      lastUpdatedOf (UpdateStatuses f p ns).file = ns.getLastD 0 % 2 ^ 64) ∧
    ((UpdateStatuses f p (ns1 ++ n0 :: ns2)).err = some .negOffset ∧
      (∀ n ∈ ns1,
        byteAt (UpdateStatuses f p (ns1 ++ n0 :: ns2)).file (24 + 45 * (n - 1)) = 1) ∧
      (∀ i, (¬∃ n ∈ ns1, i = 24 + 45 * (n - 1)) →
        byteAt (UpdateStatuses f p (ns1 ++ n0 :: ns2)).file i = byteAt f i) ∧
      lastUpdatedOf (UpdateStatuses f p (ns1 ++ n0 :: ns2)).file = lastUpdatedOf f) := by
  constructor
  · obtain ⟨herr, _, hlen, hstat, _, _, hLast⟩ := UpdateStatuses_spec f p ns hne hp hns
    refine ⟨herr, hstat, ?_, hLast⟩
    rw [hlen]
    exact Nat.le_trans (foldl_max_ge ns f.length) (Nat.le_max_left _ _)
  · obtain ⟨f1, p1, heq, hb⟩ := updLoop_abort ns1 n0 ns2 f (p + 16) hns1 hbad
    have hueq : UpdateStatuses f p (ns1 ++ n0 :: ns2) =
        UpdResult.mk (some .negOffset) f1 p1 := by
      rw [UpdateStatuses, if_neg (by simp), readFull_ok f p 16 hp]
      show (match updLoop f (p + 16) (ns1 ++ n0 :: ns2) with
        | (some e, f1, p1) => UpdResult.mk (some e) f1 p1
        | (none, f1, _) =>
          UpdResult.mk none (writeAt f1 0 (headerBytes (decBE ((bytesAt f p 16).take 8))
            ((ns1 ++ n0 :: ns2).getLastD 0))) 16) = _
      rw [heq]
    rw [hueq]
    refine ⟨rfl, ?_, ?_, ?_⟩
    · intro n hn
      show byteAt f1 (24 + 45 * (n - 1)) = 1
      rw [hb, if_pos ⟨n, hn, rfl⟩]
    · intro i hni
      show byteAt f1 i = byteAt f i
      rw [hb, if_neg hni]
    · show lastUpdatedOf f1 = lastUpdatedOf f
      rw [lastUpdatedOf, lastUpdatedOf]
      congr 1
      apply List.ext_getElem
      · simp [length_bytesAt]
      · intro j h1 h2
        simp only [length_bytesAt] at h1
        simp only [bytesAt, List.getElem_map, List.getElem_range]
        rw [hb, if_neg ?hc]
        case hc =>
          rintro ⟨m, hm, him⟩
          omega

/-- Claim C5 (code bug): `GetStatus` never compares the sequence number
against `totalRecords`, and its record offset is computed in wrapping int64
arithmetic, so a number far beyond `totalRecords` can alias to a small
in-bounds offset and be read successfully.  On the one-record file,
`number = 409927646082434481` (`totalRecords` is 1) gives
`45*(number-1) = 2^64 - 16`: the wrapped offset is exactly 0, the seek
succeeds, the 45-byte read at offset 0 succeeds, and `GetStatus` returns
status 0 — byte 8 of the *header* — with no error, contradicting the
claim's "never return a successfully read value".  `GetFilename` rejects
the same call through its explicit out-of-range check. -/
theorem claim5_wrap_bug :
    totalRecordsOf fileOne < 409927646082434481 ∧
    recordOffset 409927646082434481 = 0 ∧
    (GetStatus fileOne 0 409927646082434481).1 = .ok 0 ∧
    (GetFilename fileOne 0 409927646082434481).1 = .error .outOfRange := by
  refine ⟨by decide, by decide, by rfl, by rfl⟩

/-- Claim C6 counterexample: a file shorter than the header but nonempty is
*not* treated as an empty header — `binary.Read` returns
`io.ErrUnexpectedEOF`, which `AppendRecord` does not tolerate (it only
tolerates `io.EOF`), so the append on an 8-byte file errors out. -/
theorem claim6_counterexample :
    AppendRecord (List.replicate 8 0) [] 0 = .error .unexpectedEof := by
  rfl

/-- Claim C6 amended: only a zero-length file is treated as the empty/zero
header: the first append then succeeds, returns sequence number 1 and
initializes `lastUpdated` to the zero sentinel.  A file that is nonempty
but still shorter than the 16-byte header instead makes the append fail
(partial header read), returning an error. -/
theorem claim6_amended (f tok : List Nat) (s : Nat) (hshort : f.length < 16) :
    (f = [] → ∃ f', AppendRecord f tok s = .ok (1, f') ∧
      totalRecordsOf f' = 1 ∧ lastUpdatedOf f' = 0 ∧ (GetLastNumber f').1 = .ok 1) ∧
    (f ≠ [] → ∃ e, AppendRecord f tok s = .error e) := by
  constructor
  · intro he
    subst he
    have h0 : totalRecordsOf ([] : List Nat) = 0 := by decide
    obtain ⟨f', happ, hwf, hT⟩ := append_step [] tok s (Or.inl rfl) (by rw [h0]; norm_num)
    rw [h0] at happ hT
    refine ⟨f', by simpa using happ, by simpa using hT, ?_, ?_⟩
    · obtain ⟨_, hpair⟩ := AppendRecord_ok_inv [] tok s (0 + 1) f' happ
      have hf' : f' = (appendCore [] tok s (totalRecordsOf []) (lastUpdatedOf [])).2 :=
        congrArg Prod.snd hpair
      rw [hf', lastUpdatedOf_appendCore, h0]
      rw [if_pos (by norm_num)]
    · rw [GetLastNumber_wf f' (by rw [hwf.2]; omega), hT]
  · intro hne
    have hpos : 0 < f.length := List.length_pos.mpr hne
    refine ⟨.unexpectedEof, ?_⟩
    rw [AppendRecord, readFull, if_neg (by omega), if_neg (by omega)]

/-- Claim C10: a batch status update with an empty list of sequence numbers
returns success immediately — before `ensureFileOpen` — so no file is
opened or created, no byte is read or written, and the key's state
(including the header's `lastUpdated`) is completely unchanged. -/
theorem claim10_empty_batch (st : KeyState) :
    UpdateStatusesState st [] = (none, st) := rfl

/-- Claim C7 (code bug): when the newest shard holds the per-shard ceiling
of 1,000,000 records, the next append does create a new sequentially
numbered shard whose *in-memory* header shows `RecordsCount = 1`, with the
prior shard untouched — but the new shard's header **as persisted on
disk** still reads `RecordsCount = 0`: `VMOFile.AddRecord` appends only the
record bytes and never rewrites the header on disk (`updateHeader` exists
in the source but is never called), contradicting the claim's on-disk
conjunct. -/
theorem claim7_shard_bug (s0 : VMO.VMOFile) (md5 : List Nat) (now : Nat)
    (hfull : s0.headerCount = 1000000) :
    (VMO.VMOFilesAddRecord [s0] md5 now).length = 2 ∧
    (VMO.VMOFilesAddRecord [s0] md5 now).headD VMO.createNewVMOFile = s0 ∧
    ((VMO.VMOFilesAddRecord [s0] md5 now).getLastD VMO.createNewVMOFile).headerCount = 1 ∧
    VMO.diskRecordsCount
      ((VMO.VMOFilesAddRecord [s0] md5 now).getLastD VMO.createNewVMOFile) = 0 := by
  have h1 : VMO.VMOFilesAddRecord [s0] md5 now
      = [s0, VMO.VMOFileAddRecord VMO.createNewVMOFile md5 now] := by
    rw [VMO.VMOFilesAddRecord]
    simp only [List.getLast?_singleton]
    rw [if_pos (by rw [hfull])]
    rfl
  rw [h1]
  have h2 : ([s0, VMO.VMOFileAddRecord VMO.createNewVMOFile md5 now].getLastD
      VMO.createNewVMOFile) = VMO.VMOFileAddRecord VMO.createNewVMOFile md5 now := rfl
  rw [h2]
  refine ⟨rfl, rfl, ?_, ?_⟩
  · show (0 + 1) % 2 ^ 32 = 1
    norm_num
  have hhdr : (VMO.vmoHeaderBytes 0).length = 11 := by decide
  have h3 : bytesAt (VMO.VMOFileAddRecord VMO.createNewVMOFile md5 now).disk 7 4
      = bytesAt (VMO.vmoHeaderBytes 0) 7 4 := by
    apply List.ext_getElem
    · simp [length_bytesAt]
    · intro j hj1 hj2
      simp only [length_bytesAt] at hj1
      simp only [bytesAt, List.getElem_map, List.getElem_range]
      show byteAt (writeAt (VMO.vmoHeaderBytes 0) (VMO.vmoHeaderBytes 0).length
        (VMO.vmoRecordBytes md5 now)) (7 + j) = byteAt (VMO.vmoHeaderBytes 0) (7 + j)
      rw [byteAt_writeAt, if_neg (by rw [hhdr]; omega)]
  rw [VMO.diskRecordsCount, h3]
  decide

/-- Claim C8 counterexample: files can come into being without any append.
Opening the shard-variant store on a base path with no shard files
immediately creates shard file 0 with its 11-byte header written to disk;
and in the sequential variant, a read-only `GetStatus` on a key whose
directory exists but whose `data.bin` does not creates the (empty) file via
`O_CREATE` before failing with a read error. -/
theorem claim8_counterexample :
    VMO.NewVMOFiles [] = [VMO.createNewVMOFile] ∧
    VMO.createNewVMOFile.disk.length = 11 ∧
    (GetStatusState ⟨true, none, none⟩ 1).2.file = some [] ∧
    (GetStatusState ⟨true, none, none⟩ 1).1 = .error .eof := by
  refine ⟨rfl, by decide, rfl, rfl⟩

/-- Claim C8 amended: on a key with neither directory nor file, every
read-only operation fails with `ENOENT` and leaves the state untouched (no
file is created, because `os.OpenFile` cannot create `data.bin` in a
missing directory — only the first append creates it); opening the
shard-variant store creates nothing when shards already exist.  However,
when the key's directory exists without its data file, a read-only
operation *does* create an empty file (and then fails reading it), and the
shard-variant store open on an empty base path creates shard file 0 before
any append. -/
theorem claim8_amended (n : Nat) (loaded : List VMO.VMOFile) (hl : loaded ≠ []) :
    GetStatusState ⟨false, none, none⟩ n = (.error .enoent, ⟨false, none, none⟩) ∧
    GetFilenameState ⟨false, none, none⟩ n = (.error .enoent, ⟨false, none, none⟩) ∧
    GetLastNumberState ⟨false, none, none⟩ = (.error .enoent, ⟨false, none, none⟩) ∧
    GetLastUpdateNumberState ⟨false, none, none⟩ = (.error .enoent, ⟨false, none, none⟩) ∧
    VMO.NewVMOFiles loaded = loaded ∧
    (GetStatusState ⟨true, none, none⟩ n).2.file = some [] ∧
    (GetStatusState ⟨true, none, none⟩ n).1 = .error .eof := by
  refine ⟨rfl, rfl, rfl, rfl, ?_, rfl, rfl⟩
  rw [VMO.NewVMOFiles, if_neg (by simp [hl])]

/-! ### Witnesses: the claim theorems evaluated at concrete inputs -/

theorem claim1_nth_append_witness :
    ([[], []] : List (List Nat)).length < 2 ^ 64 ∧
    (∃ ff, appendIter [] [[], []] 0 = .ok (ff, List.range' 1 2) ∧
      (([[], []] : List (List Nat)) ≠ [] → (GetLastNumber ff).1 = .ok 2)) :=
  ⟨by norm_num, (claim1_nth_append [[], []] 0 (by norm_num)).1⟩

theorem claim9_concurrent_appends_witness :
    ([[], [], []] : List (List Nat)).length < 2 ^ 64 ∧
    (∃ ff rets, appendIter [] [[], [], []] 0 = .ok (ff, rets) ∧
      rets.Perm (List.range' 1 3) ∧ rets.Nodup ∧ rets.length = 3) :=
  ⟨by norm_num, claim9_concurrent_appends [[], [], []] 0 (by norm_num)⟩

theorem claim2_batch_update_witness :
    wfFile fileTwo ∧
    ((UpdateStatuses fileTwo 0 [2, 1, 2]).err = none ∧
      (∀ n ∈ ([2, 1, 2] : List Nat),
        (GetStatus (UpdateStatuses fileTwo 0 [2, 1, 2]).file
          (UpdateStatuses fileTwo 0 [2, 1, 2]).pos n).1 = .ok 1) ∧
      (GetLastUpdateNumber (UpdateStatuses fileTwo 0 [2, 1, 2]).file).1 =
        .ok (([2, 1, 2] : List Nat).getLastD 0)) :=
  ⟨⟨by decide, by decide⟩,
    claim2_batch_update fileTwo 0 [2, 1, 2] ⟨by decide, by decide⟩ (by decide) (by decide)
      (by decide) (by decide)⟩

theorem claim3_amended_witness :
    wfFile fileTwo ∧ wfFile004 fileOne004 ∧
    (UpdateStatuses fileTwo 0 [1]).file.length = fileTwo.length ∧
    totalRecordsOf (UpdateStatuses fileTwo 0 [1]).file = totalRecordsOf fileTwo := by
  have h := claim3_amended fileTwo [1] 1 0 ⟨by decide, by decide⟩ (by decide) (by decide)
    (by decide) fileOne004 ⟨by decide, by decide⟩ (by decide) (by decide) (by decide)
  exact ⟨⟨by decide, by decide⟩, ⟨by decide, by decide⟩, h.1.2.1, h.1.2.2.1⟩

theorem claim4_amended_witness :
    (0 + 16 ≤ fileOne.length ∧
      (∀ n ∈ ([2, 5] : List Nat), 1 ≤ n ∧ 24 + 45 * (n - 1) < 2 ^ 63) ∧
      2 ^ 63 ≤ statusOffset 9223372036854775809) ∧
    ((UpdateStatuses fileOne 0 [2, 5]).err = none ∧
      (∀ n ∈ ([2, 5] : List Nat),
        byteAt (UpdateStatuses fileOne 0 [2, 5]).file (24 + 45 * (n - 1)) = 1) ∧
      fileOne.length ≤ (UpdateStatuses fileOne 0 [2, 5]).file.length ∧
      lastUpdatedOf (UpdateStatuses fileOne 0 [2, 5]).file =
        ([2, 5] : List Nat).getLastD 0 % 2 ^ 64) ∧
    ((UpdateStatuses fileOne 0 [1, 9223372036854775809, 3]).err = some .negOffset ∧
      byteAt (UpdateStatuses fileOne 0 [1, 9223372036854775809, 3]).file 24 = 1 ∧
      lastUpdatedOf (UpdateStatuses fileOne 0 [1, 9223372036854775809, 3]).file =
        lastUpdatedOf fileOne) := by
  have h := claim4_amended fileOne 0 [2, 5] (by decide) (by decide) (by decide)
    [1] 9223372036854775809 [3] (by decide) (by decide)
  refine ⟨⟨by decide, by decide, by decide⟩, h.1, h.2.1, ?_, h.2.2.2.2⟩
  have h2 := h.2.2.1 1 (by decide)
  simpa using h2

theorem claim6_amended_witness :
    (List.replicate 8 0 : List Nat).length < 16 ∧
    ((List.replicate 8 0 : List Nat) ≠ [] →
      ∃ e, AppendRecord (List.replicate 8 0) [] 0 = .error e) ∧
    (([] : List Nat) = [] → ∃ f', AppendRecord [] [] 0 = .ok (1, f') ∧
      totalRecordsOf f' = 1 ∧ lastUpdatedOf f' = 0 ∧ (GetLastNumber f').1 = .ok 1) :=
  ⟨by decide, (claim6_amended (List.replicate 8 0) [] 0 (by decide)).2,
    (claim6_amended [] [] 0 (by decide)).1⟩

theorem claim7_shard_bug_witness :
    (VMO.VMOFile.mk 1000000 []).headerCount = 1000000 ∧
    ((VMO.VMOFilesAddRecord [⟨1000000, []⟩] [] 0).getLastD VMO.createNewVMOFile).headerCount
      = 1 ∧
    VMO.diskRecordsCount
      ((VMO.VMOFilesAddRecord [⟨1000000, []⟩] [] 0).getLastD VMO.createNewVMOFile) = 0 := by
  have h := claim7_shard_bug ⟨1000000, []⟩ [] 0 rfl
  exact ⟨rfl, h.2.2.1, h.2.2.2⟩

theorem claim8_amended_witness :
    ([VMO.createNewVMOFile] : List VMO.VMOFile) ≠ [] ∧
    GetStatusState ⟨false, none, none⟩ 0 = (.error .enoent, ⟨false, none, none⟩) ∧
    VMO.NewVMOFiles [VMO.createNewVMOFile] = [VMO.createNewVMOFile] := by
  have h := claim8_amended 0 [VMO.createNewVMOFile] (by simp)
  exact ⟨by simp, h.1, h.2.2.2.2.1⟩

end QueueGuard
